import Mathlib

/-!
Verification development for the MCTS engine (src/src/cc/mcts.hpp,
src/src/mctree.hpp, src/src/chess.hpp, src/src/cc/chess/main.cpp).

The C++ code is shallowly embedded: `double` values become `ℚ` (exact
field arithmetic standing in for IEEE doubles; `DBL_EPSILON` becomes
`dblEps = 1/2^52`), visit counters (`std::uint_fast32_t`) become `ℕ`,
node pointers become paths (lists of child indices) in a purely
functional rose tree, and the `while (!state.isFinished())` loop of
`MCTS::policy` becomes fuel-indexed recursion returning `Option`
(`none` models non-termination / fuel exhaustion).

The `sqrt` applied to the visit count is kept abstract as a parameter
`sqrtQ : ℕ → ℚ` (the code already passes the computed square root into
`getUCB` as a plain `double` argument); what the code computes before
taking the square root — including the `static_cast<ActCounterType>`
truncation — is embedded exactly in `visitSqrtArg`.
-/

set_option autoImplicit false

namespace MCTSVerif

/-- Model of `std::numeric_limits<double>::epsilon()` used in `MCTS::getUCB`. -/
def dblEps : ℚ := 1 / 2 ^ 52

/-- Per-node search statistics of `MCTSNodeBase` (src/src/cc/mcts.hpp lines
27-34): visit count `N`, total value `W`, prior `P` and the incoming action.
The constructor `MCTSNodeBase(action)` initialises `N = 0, W = 0, P = 0`. -/
structure NodeData (A : Type) where
  N : ℕ
  W : ℚ
  P : ℚ
  act : A
  deriving Repr, DecidableEq

/-- The search tree: a node with its ordered list of children, modelling
`MCTreeDynamic::Node` (data plus `std::vector` of child pointers). -/
inductive MTree (A : Type) : Type where
  | node : NodeData A → List (MTree A) → MTree A

/-- The statistics stored at the root of a subtree. -/
def MTree.data {A : Type} : MTree A → NodeData A
  | .node d _ => d

/-- The ordered child list of the root of a subtree (insertion order,
as `MCTreeDynamic::ChildIterator` enumerates it). -/
def MTree.children {A : Type} : MTree A → List (MTree A)
  | .node _ cs => cs

/-- Follow a path of child indices and return the node data there
(`none` when the path leaves the tree). -/
def dataAt {A : Type} : MTree A → List ℕ → Option (NodeData A)
  | t, [] => some t.data
  | t, i :: p =>
    match t.children[i]? with
    | some c => dataAt c p
    | none => none

/-- The incoming actions of the nodes along a path, outermost first. -/
def actionsAlong {A : Type} : MTree A → List ℕ → Option (List A)
  | _, [] => some []
  | t, i :: p =>
    match t.children[i]? with
    | some c => (actionsAlong c p).map (fun l => c.data.act :: l)
    | none => none

/-- Number of occurrences of the empty path in a list of paths: how often
the sub-root itself appears among the visited nodes. -/
def countNil : List (List ℕ) → ℕ
  | [] => 0
  | p :: r => (if p = [] then 1 else 0) + countNil r

/-- The Problem template contract consumed by `MCTS` (state copy, terminal
test, `getPossibleActions`, `computeMCTS_WP` split into its prior vector and
its scalar value, `update`, the `UCT_C` constant and the bit width of
`ActCounterType`).  `wpP s` models the `P` array filled by
`computeMCTS_WP`; `wpW s` models the `W` reference it fills (in
`Chess::computeMCTS_WP` the value depends only on the state, not on the
action array argument). -/
structure Problem (S A : Type) where
  isFinished : S → Bool
  legalActions : S → List A
  wpP : S → ℕ → ℚ
  wpW : S → ℚ
  update : S → A → S
  uctC : ℚ
  actBits : ℕ

/-- `MCTS::getUCB` (src/src/cc/mcts.hpp lines 290-299):
`p = ratio*P + (1-ratio)*dnoise`, `n = N + eps`, `q = W/n`,
`u = p * (sqrtN/(1+n))`, value `q + c*u`. -/
def getUCB {A : Type} (nd : NodeData A) (subRootVisitSqrt ratio dnoise c : ℚ) : ℚ :=
  nd.W / ((nd.N : ℚ) + dblEps) +
    c * ((ratio * nd.P + (1 - ratio) * dnoise) *
      (subRootVisitSqrt / (1 + ((nd.N : ℚ) + dblEps))))

/-- The argument handed to `sqrt` on line 248 of src/src/cc/mcts.hpp:
`std::max(static_cast<ActCounterType>(node->N), (ActCounterType)1)`.
The cast truncates the `uint_fast32_t` visit count to the width of the
Problem's `ActCounterType` (modelled as reduction mod `2 ^ actBits`). -/
def visitSqrtArg (actBits : ℕ) (n : ℕ) : ℕ := max (n % 2 ^ actBits) 1

/-- Width in bits of `Chess::ActCounterType = std::uint_fast8_t`
(8 bits — `unsigned char` — on the supported platforms). -/
def chessActBits : ℕ := 8

/-- The selection fold of `MCTS::policy` (lines 246-257): scan the children
with a running best `(index, value)`; the running best starts as the parent
node itself (modelled by the `none` accumulator, matching
`best = node; best_val = -DBL_MAX`) and a child replaces it exactly when
`best_val < val`.  Index `i` reads Dirichlet entry `i % dirichlet.length`
as in `it.first % dirichlet.size()`. -/
def selectAux {A : Type} (sqrtN ratio c : ℚ) (dirichlet : List ℚ) :
    ℕ → Option (ℕ × ℚ) → List (MTree A) → Option (ℕ × ℚ)
  | _, acc, [] => acc
  | i, acc, ch :: rest =>
    let dn := dirichlet.getD (i % dirichlet.length) 0
    let val := getUCB ch.data sqrtN ratio dn c
    let acc2 := match acc with
      | none => some (i, val)
      | some (j, bv) => if bv < val then some (i, val) else some (j, bv)
    selectAux sqrtN ratio c dirichlet (i + 1) acc2 rest

/-- Index of the child selected by the policy loop, `none` when the child
list is empty (in which case the code leaves `best = node`, the parent). -/
def selectBestChild {A : Type} (cs : List (MTree A)) (sqrtN ratio c : ℚ)
    (dirichlet : List ℚ) : Option ℕ :=
  (selectAux sqrtN ratio c dirichlet 0 none cs).map Prod.fst

/-- Children created by the expansion loop of `MCTS::policy` (lines 236-239):
one leaf per action, in action order, with `P` set from the prior vector
(`addNode` constructs the node with `N = 0, W = 0, P = 0`, then `n->P = P[i]`
overwrites the prior).  `i` is the index of the first action in the prior
vector. -/
def mkChildren {A : Type} (pr : ℕ → ℚ) : ℕ → List A → List (MTree A)
  | _, [] => []
  | i, a :: as => MTree.node ⟨0, 0, pr i, a⟩ [] :: mkChildren pr (i + 1) as

/-- The expansion step (lines 230-240): query the Problem for the legal
actions and priors at the traversed state and append one child per action. -/
def expandTree {S A : Type} (prob : Problem S A) (s : S) (t : MTree A) : MTree A :=
  MTree.node t.data (t.children ++ mkChildren (prob.wpP s) 0 (prob.legalActions s))

/-- `MCTS::policy` (src/src/cc/mcts.hpp lines 217-268), fuel-indexed.
The result is the updated subtree rooted at this call's node, the list of
visited node paths relative to that node (the node itself is recorded first,
matching `visited_nodes.push_back(node)` before the loop; each selected best
node is recorded when selected), and the value `W` filled by
`computeMCTS_WP`.  The Dirichlet noise vector is drawn outside the search in
the code (`computeDirichlet`), so it enters here as a parameter; `ratio`
starts at 0.75 at the sub-root and is set to 1 after the first selection.
When the child list is empty the code's fold leaves `best = node`, so the
loop re-visits the same node after `state.update(node->action)`. -/
def policyLoop {S A : Type} (prob : Problem S A) (sqrtQ : ℕ → ℚ) (dirichlet : List ℚ) :
    ℕ → ℚ → MTree A → S → Option (MTree A × List (List ℕ) × ℚ)
  | 0, _, _, _ => none
  | fuel + 1, ratio, t, s =>
    if prob.isFinished s then
      some (t, [[]], prob.wpW s)
    else if t.data.N = 0 ∧ t.children.length = 0 then
      some (expandTree prob s t, [[]], prob.wpW s)
    else
      let sqrtN := sqrtQ (visitSqrtArg prob.actBits t.data.N)
      match selectBestChild t.children sqrtN ratio prob.uctC dirichlet with
      | none =>
        (policyLoop prob sqrtQ dirichlet fuel 1 t (prob.update s t.data.act)).map
          (fun r => (r.1, [] :: r.2.1, r.2.2))
      | some i =>
        match t.children[i]? with
        | none => none
        | some c =>
          (policyLoop prob sqrtQ dirichlet fuel 1 c (prob.update s c.data.act)).map
            (fun r => (MTree.node t.data (t.children.set i r.1),
                       [] :: r.2.1.map (fun p => i :: p), r.2.2))

/-- The per-node update of `MCTS::backprop`: `node.N++; node.W += W`. -/
def bumpData {A : Type} (W : ℚ) (d : NodeData A) : NodeData A :=
  { d with N := d.N + 1, W := d.W + W }

/-- Apply a data update at the end of a path (identity when the path leaves
the tree). -/
def modifyAt {A : Type} (f : NodeData A → NodeData A) : List ℕ → MTree A → MTree A
  | [], t => MTree.node (f t.data) t.children
  | i :: p, t =>
    match t.children[i]? with
    | some c => MTree.node t.data (t.children.set i (modifyAt f p c))
    | none => t

/-- `MCTS::backprop` (lines 271-278): for every visited node,
`N += 1; W += value`. -/
def backprop {A : Type} (visited : List (List ℕ)) (W : ℚ) (t : MTree A) : MTree A :=
  visited.foldl (fun acc p => modifyAt (bumpData W) p acc) t

/-- One search iteration as performed in `MCTS::execute` (both the warm
iteration and each loop body, lines 356-364 and 373-384): selection plus
expansion on a fresh copy of the state, then backpropagation. -/
def runIteration {S A : Type} (prob : Problem S A) (sqrtQ : ℕ → ℚ)
    (dirichlet : List ℚ) (fuel : ℕ) (t : MTree A) (s : S) : Option (MTree A) :=
  match policyLoop prob sqrtQ dirichlet fuel (3 / 4) t s with
  | none => none
  | some r => some (backprop r.2.1 r.2.2 r.1)

/-- The fan-out loop `for (int i = 1; i < policyIter; ++i)` of
`MCTS::execute`, run sequentially (the single-threaded build; each
iteration starts from a fresh copy of the same external state `s0` and
draws its own Dirichlet vector `noise idx`). -/
def runIters {S A : Type} (prob : Problem S A) (sqrtQ : ℕ → ℚ)
    (noise : ℕ → List ℚ) (fuel : ℕ) (s0 : S) :
    ℕ → ℕ → MTree A → Option (MTree A)
  | _, 0, t => some t
  | idx, n + 1, t =>
    match runIteration prob sqrtQ (noise idx) fuel t s0 with
    | none => none
    | some t2 => runIters prob sqrtQ noise fuel s0 (idx + 1) n t2

/-- `MCTS::selectMoveDeterministic` (lines 301-313): running best starts at
the node itself with `most_visit = 0`; a child replaces it exactly when
`most_visit < child->N`; the action of the final best is returned. -/
def selectMoveDeterministic {A : Type} (t : MTree A) : A :=
  (t.children.foldl
    (fun acc c => if acc.2 < c.data.N then (c.data.act, c.data.N) else acc)
    (t.data.act, 0)).1

/-- The temperature set in the stochastic branch of `MCTS::execute`
(lines 401-403): `tau = 1.0; if (history.size() > 60) tau = 0.05;`. -/
def tauOf (histLen : ℕ) : ℚ := if 60 < histLen then 1 / 20 else 1

/-- The exponent `1/tau` applied to the visit counts in
`selectMoveStochastic` (`pow(child->N, 1.0/tau)`).  For the two values
`tau` can take this exponent is exactly 1 or 20, so it is embedded as a
natural number. -/
def invTauNat (histLen : ℕ) : ℕ := if 60 < histLen then 20 else 1

/-- The unnormalized weights `pi` of `MCTS::selectMoveStochastic`
(line 322): `pow(child->N, 1.0/tau)` over the children in order. -/
def piUnnormalized (Ns : List ℕ) (invTau : ℕ) : List ℚ :=
  Ns.map (fun n => (n : ℚ) ^ invTau)

/-- The normalization step of `selectMoveStochastic` (lines 327-329):
divide every entry by the sum. -/
def normalizeQ (l : List ℚ) : List ℚ :=
  let s := l.sum
  l.map (fun x => x / s)

/-- The probability vector handed to `std::discrete_distribution` by
`selectMoveStochastic`, as a function of the children's visit counts and
the history length (which fixes the temperature). -/
def piStochastic (Ns : List ℕ) (histLen : ℕ) : List ℚ :=
  normalizeQ (piUnnormalized Ns (invTauNat histLen))

/-- The sampled action of `selectMoveStochastic`: `childs[select]->action`
where `select` is drawn from the discrete distribution over `pi`.  The
draw itself is randomness, modelled by the oracle `pick`; an out-of-range
draw (impossible for a well-formed distribution) falls back to the node's
own action to keep the function total. -/
def stochasticAct {A : Type} (t : MTree A) (pick : List ℚ → ℕ) (histLen : ℕ) : A :=
  let pi := piStochastic (t.children.map (fun c => c.data.N)) histLen
  match t.children[pick pi]? with
  | some c => c.data.act
  | none => t.data.act

/-- The decision record produced by one `MCTS::execute` call: the returned
action, the final sub-root subtree, the number of search iterations
actually run (warm iteration included), and the `pi` vector handed to the
sampler in stochastic mode (`[]` in deterministic mode). -/
structure ExecOut (A : Type) where
  act : A
  tree : MTree A
  itersRun : ℕ
  piOut : List ℚ

/-- `MCTS::execute` (src/src/cc/mcts.hpp lines 346-426) on the sub-root
subtree delivered by `catchup`, single-threaded: the warm iteration, the
early exit when the sub-root has exactly one child in deterministic mode,
the fan-out of `policyIter - 1` further iterations, and the final move
selection (deterministic by visit count, or stochastic with temperature
from the history length).  `histLen` is `history.size()`; `noise idx` is
the Dirichlet vector drawn for iteration `idx`; `pick` is the sampling
oracle of the stochastic selector. -/
def executeCore {S A : Type} (prob : Problem S A) (sqrtQ : ℕ → ℚ)
    (isDeterministic : Bool) (s0 : S) (policyIter : ℕ) (histLen : ℕ)
    (noise : ℕ → List ℚ) (pick : List ℚ → ℕ) (fuel : ℕ)
    (t0 : MTree A) : Option (ExecOut A) :=
  match runIteration prob sqrtQ (noise 0) fuel t0 s0 with
  | none => none
  | some t1 =>
    if isDeterministic = true ∧ t1.children.length = 1 then
      match t1.children with
      | [] => none
      | c :: _ => some ⟨c.data.act, t1, 1, []⟩
    else
      match runIters prob sqrtQ noise fuel s0 1 (policyIter - 1) t1 with
      | none => none
      | some t2 =>
        if isDeterministic = true then
          some ⟨selectMoveDeterministic t2, t2, 1 + (policyIter - 1), []⟩
        else
          some ⟨stochasticAct t2 pick histLen, t2, 1 + (policyIter - 1),
                piStochastic (t2.children.map (fun c => c.data.N)) histLen⟩

/-- First child (index and subtree) whose incoming action equals `a`, as
scanned by the iterator loop in `MCTS::catchup`. -/
def findChildAux {A : Type} [DecidableEq A] (a : A) :
    ℕ → List (MTree A) → Option (ℕ × MTree A)
  | _, [] => none
  | i, c :: rest => if c.data.act = a then some (i, c) else findChildAux a (i + 1) rest

def findChild {A : Type} [DecidableEq A] (cs : List (MTree A)) (a : A) :
    Option (ℕ × MTree A) :=
  findChildAux a 0 cs

/-- `MCTS::catchup` (src/src/cc/mcts.hpp lines 194-214): walk from the
root following the history; for each action find the matching child by
action equality, creating one (`addNode`, hence `N = 0, W = 0, P = 0`)
when none exists.  Returns the updated tree together with the path of the
node reached after consuming the whole history. -/
def catchup {A : Type} [DecidableEq A] : MTree A → List A → MTree A × List ℕ
  | t, [] => (t, [])
  | t, a :: h =>
    match findChild t.children a with
    | some (i, c) =>
      let r := catchup c h
      (MTree.node t.data (t.children.set i r.1), i :: r.2)
    | none =>
      let r := catchup (MTree.node ⟨0, 0, 0, a⟩ []) h
      (MTree.node t.data (t.children ++ [r.1]), t.children.length :: r.2)

/-! `MCTreeStaticArray` (src/src/mctree.hpp lines 262-381).  A node's child
links are a fixed-length array of `N_MaxChild` indices into the node
vector; index 0 (the root's slot) is the empty-slot sentinel.  Only the
child-slot array of the parent matters for `addNode`, so it is embedded as
a `List ℕ` whose length is `N_MaxChild`. -/

/-- The scan `for (idx = 0; idx < N_MaxChild; ++idx) if (childs[idx] == 0) break;`
of `MCTreeStaticArray::addNode`: the first index holding 0, or the list
length when every slot is occupied (`List.findIdx` returns the length on
no hit, exactly like the loop). -/
def firstFreeIdx (childs : List ℕ) : ℕ := childs.findIdx (fun x => x = 0)

/-- Result of `MCTreeStaticArray::addNode` as it affects the parent:
the index written to (`parent.childs[idx] = child_idx` — out of bounds
when `idx = N_MaxChild`), whether the `"Error in child saving"` branch ran
(the code does not return after it), and the slot array after the write
(`List.set` leaves the list unchanged on an out-of-bounds index; the
theorems state explicitly when the write index is outside the array). -/
def staticAddNode (childs : List ℕ) (childIdx : ℕ) : ℕ × Bool × List ℕ :=
  let idx := firstFreeIdx childs
  (idx, decide (idx = childs.length), childs.set idx childIdx)

/-- The children enumerated by `MCTreeStaticArray::ChildIterator`, which
walks the slot array until it reads a 0. -/
def iterChildren (childs : List ℕ) : List ℕ := childs.takeWhile (fun x => ¬ x = 0)

/-! The command-line handling of the chess driver
(src/src/cc/chess/main.cpp lines 95-136).  `args` models
`argv[1..argc-1]`, so `argc = args.length + 1`.  `Except.error rc` models
`return rc` from `main` before the engine is constructed and any search
begins; `Except.ok ()` models falling through to the game loop. -/

/-- The keys recognised by the chess driver's `key value` scanner. -/
def chessKnownKey (k : String) : Bool :=
  k = "writeTree" ∨ k = "deterministic" ∨ k = "seed" ∨ k = "workDir" ∨
  k = "portW" ∨ k = "portB" ∨ k = "p0" ∨ k = "p1"

/-- The loop `for (int i = 1; i < argc; i += 2)`: consume `key value`
pairs, returning -1 on the first unknown key.  (Given odd `argc` the
one-element case cannot arise; it is mapped to the same exit.) -/
def chessParsePairs : List String → Except Int Unit
  | [] => Except.ok ()
  | [_] => Except.error (-1)
  | k :: _ :: rest =>
    if chessKnownKey k then chessParsePairs rest else Except.error (-1)

/-- `main` of the chess driver up to (and including) argument validation:
`-h`/`--help` alone prints usage and returns 0; an even `argc` returns -1
("Invalid input"); an unknown key returns -1; otherwise control reaches
the search. -/
def chessMain (args : List String) : Except Int Unit :=
  if args = ["-h"] ∨ args = ["--help"] then Except.error 0
  else if (args.length + 1) % 2 = 0 then Except.error (-1)
  else chessParsePairs args

/-- Flatten a list of key/value pairs into an argument vector, as the
driver's `for (i = 1; i < argc; i += 2)` loop consumes them. -/
def pairsToArgs (ps : List (String × String)) : List String :=
  ps.foldr (fun p acc => p.1 :: p.2 :: acc) []

/-- The temperature schedule as the specification describes it:
`τ = 1.0` for the first 30 half-moves (history length), `τ = 0.05`
afterwards.  To be compared with `tauOf`, the schedule the code
implements. -/
def tauClaimSchedule (histLen : ℕ) : ℚ := if histLen < 30 then 1 else 1 / 20

/-! ### Demonstration problems and trees used by the witnesses -/

/-- A Problem whose every state is terminal with value 0. -/
def finishedProb : Problem ℕ ℕ :=
  ⟨fun _ => true, fun _ => [], fun _ _ => 0, fun _ => 0, fun s _ => s, 1, 8⟩

/-- A Problem that never terminates and always offers the single action 7. -/
def oneActionProb : Problem ℕ ℕ :=
  ⟨fun _ => false, fun _ => [7], fun _ _ => 1, fun _ => 1 / 2, fun s _ => s, 1, 8⟩

/-- A Problem that never terminates and offers the actions 10 and 20 with
priors 1/4 and 1/2. -/
def twoActionProb : Problem ℕ ℕ :=
  ⟨fun _ => false, fun _ => [10, 20], fun _ j => (j + 1 : ℚ) / 4, fun _ => 1 / 3,
   fun s _ => s, 1, 8⟩

/-- Tree with one child (action 4) used to demonstrate `catchup`. -/
def demoCatchTree : MTree ℕ :=
  MTree.node ⟨5, 1, 1, 0⟩ [MTree.node ⟨2, 3, 1 / 2, 4⟩ []]

/-! ## Theorems -/

/-! ### Generic facts about the deterministic selector's fold -/

/-- Characterisation of the running-best fold of `selectMoveDeterministic`:
either no child exceeds the initial threshold and the accumulator survives,
or the result is the first child attaining the maximal visit count above
the threshold. -/
theorem detFold_spec {A : Type} (cs : List (MTree A)) :
    ∀ (a0 : A) (m0 : ℕ),
      (cs.foldl (fun acc c => if acc.2 < c.data.N then (c.data.act, c.data.N) else acc) (a0, m0)
          = (a0, m0) ∧ ∀ c ∈ cs, c.data.N ≤ m0) ∨
      (∃ (i : ℕ) (c : MTree A), cs[i]? = some c ∧ m0 < c.data.N ∧
        cs.foldl (fun acc c => if acc.2 < c.data.N then (c.data.act, c.data.N) else acc) (a0, m0)
          = (c.data.act, c.data.N) ∧
        (∀ (j : ℕ) (d : MTree A), cs[j]? = some d → d.data.N ≤ c.data.N) ∧
        (∀ (j : ℕ) (d : MTree A), j < i → cs[j]? = some d → d.data.N < c.data.N)) := by
  induction cs with
  | nil => exact fun a0 m0 => Or.inl ⟨rfl, by simp⟩
  | cons ch rest ih =>
    intro a0 m0
    by_cases hlt : m0 < ch.data.N
    · rcases ih ch.data.act ch.data.N with ⟨heq, hall⟩ | ⟨i, c, hget, hmlt, heq, hub, hstr⟩
      · refine Or.inr ⟨0, ch, by simp, hlt, ?_, ?_, ?_⟩
        · simpa only [List.foldl_cons, if_pos hlt] using heq
        · intro j d hj
          cases j with
          | zero =>
            rw [List.getElem?_cons_zero] at hj
            cases hj; exact Nat.le_refl _
          | succ j =>
            rw [List.getElem?_cons_succ] at hj
            exact hall d (List.getElem?_mem hj)
        · intro j d hj; exact absurd hj (Nat.not_lt_zero j)
      · refine Or.inr ⟨i + 1, c, by simpa using hget, Nat.lt_trans hlt hmlt, ?_, ?_, ?_⟩
        · simpa only [List.foldl_cons, if_pos hlt] using heq
        · intro j d hj
          cases j with
          | zero =>
            rw [List.getElem?_cons_zero] at hj
            cases hj; exact Nat.le_of_lt hmlt
          | succ j =>
            rw [List.getElem?_cons_succ] at hj
            exact hub j d hj
        · intro j d hjlt hj
          cases j with
          | zero =>
            rw [List.getElem?_cons_zero] at hj
            cases hj; exact hmlt
          | succ j =>
            rw [List.getElem?_cons_succ] at hj
            exact hstr j d (Nat.lt_of_succ_lt_succ hjlt) hj
    · rcases ih a0 m0 with ⟨heq, hall⟩ | ⟨i, c, hget, hmlt, heq, hub, hstr⟩
      · refine Or.inl ⟨?_, ?_⟩
        · simpa only [List.foldl_cons, if_neg hlt] using heq
        · intro c hc
          rcases List.mem_cons.mp hc with rfl | hc
          · exact Nat.le_of_not_lt hlt
          · exact hall c hc
      · refine Or.inr ⟨i + 1, c, by simpa using hget, hmlt, ?_, ?_, ?_⟩
        · simpa only [List.foldl_cons, if_neg hlt] using heq
        · intro j d hj
          cases j with
          | zero =>
            rw [List.getElem?_cons_zero] at hj
            cases hj; exact Nat.le_trans (Nat.le_of_not_lt hlt) (Nat.le_of_lt hmlt)
          | succ j =>
            rw [List.getElem?_cons_succ] at hj
            exact hub j d hj
        · intro j d hjlt hj
          cases j with
          | zero =>
            rw [List.getElem?_cons_zero] at hj
            cases hj; exact Nat.lt_of_le_of_lt (Nat.le_of_not_lt hlt) hmlt
          | succ j =>
            rw [List.getElem?_cons_succ] at hj
            exact hstr j d (Nat.lt_of_succ_lt_succ hjlt) hj

/-! ### C4 — the deterministic action selector -/

/-- C4 (counterexample): with two children of distinct actions 1 and 2,
both with `N = 0` (the all-tied zero-visit case), `selectMoveDeterministic`
returns 0, the action of the *node itself* (`most_ptr` is initialised to
the parent and `most_visit < child->N` never fires), not the first child's
action 1 as the claim states. -/
theorem selectMoveDeterministic_tie_counterexample :
    selectMoveDeterministic (MTree.node ⟨1, 0, 0, (0 : ℕ)⟩
        [MTree.node ⟨0, 0, 0, 1⟩ [], MTree.node ⟨0, 0, 0, 2⟩ []]) = 0 ∧
      (0 : ℕ) ≠ 1 ∧ (0 : ℕ) ≠ 2 :=
  ⟨rfl, by decide, by decide⟩

/-- C4 (amended): `selectMoveDeterministic` returns the action of the child
with the maximum visit count, ties broken in favour of the first child in
insertion order, *provided at least one child has a positive visit count*;
when every child has `N = 0` it instead returns the node's own action. -/
theorem selectMoveDeterministic_spec {A : Type} (t : MTree A) :
    ((∀ c ∈ t.children, c.data.N = 0) → selectMoveDeterministic t = t.data.act) ∧
    (∀ c0 ∈ t.children, 0 < c0.data.N →
      ∃ (i : ℕ) (c : MTree A), t.children[i]? = some c ∧ selectMoveDeterministic t = c.data.act ∧
        (∀ (j : ℕ) (d : MTree A), t.children[j]? = some d → d.data.N ≤ c.data.N) ∧
        (∀ (j : ℕ) (d : MTree A), j < i → t.children[j]? = some d → d.data.N < c.data.N)) := by
  constructor
  · intro hall
    rcases detFold_spec t.children t.data.act 0 with ⟨heq, _⟩ | ⟨i, c, hget, hmlt, _, _, _⟩
    · show (t.children.foldl _ (t.data.act, 0)).1 = t.data.act
      rw [heq]
    · exact absurd (hall c (List.getElem?_mem hget) ▸ hmlt) (by simp)
  · intro c0 hc0 hpos
    rcases detFold_spec t.children t.data.act 0 with ⟨_, hall⟩ | ⟨i, c, hget, _, heq, hub, hstr⟩
    · exact absurd hpos (Nat.not_lt_of_le (hall c0 hc0))
    · refine ⟨i, c, hget, ?_, hub, hstr⟩
      show (t.children.foldl _ (t.data.act, 0)).1 = c.data.act
      rw [heq]

/-- C4 (witness): applying the amended theorem to a node with action 42
whose two children both have `N = 0`. -/
theorem selectMoveDeterministic_spec_witness :
    selectMoveDeterministic (MTree.node ⟨3, 0, 0, (42 : ℕ)⟩
        [MTree.node ⟨0, 0, 0, 8⟩ [], MTree.node ⟨0, 0, 0, 9⟩ []]) = 42 :=
  (selectMoveDeterministic_spec _).1 (by decide)

/-! ### C8 — the exploration scale truncates the visit count -/

/-- C8: on line 248 of src/src/cc/mcts.hpp the visit count is cast to the
Problem's `ActCounterType` before `sqrt(max(·, 1))` is taken.  For Chess,
`ActCounterType` is the 8-bit `std::uint_fast8_t`, so a node with
`N = 256` yields `sqrt(max(256 mod 256, 1)) = sqrt 1 = 1` instead of the
specified `sqrt(max(256, 1)) = 16`: the exploration scale is *not*
`sqrt(max(N, 1))` once `N` reaches 256. -/
theorem chess_visitSqrt_truncation :
    visitSqrtArg chessActBits 256 = 1 ∧ max 256 1 = 256 ∧
    Real.sqrt ((visitSqrtArg chessActBits 256 : ℕ) : ℝ) = 1 ∧
    Real.sqrt ((max 256 1 : ℕ) : ℝ) = 16 ∧ (1 : ℝ) ≠ 16 := by
  refine ⟨rfl, rfl, ?_, ?_, by norm_num⟩
  · norm_num [show visitSqrtArg chessActBits 256 = 1 from rfl]
  · rw [show ((max 256 1 : ℕ) : ℝ) = 16 ^ 2 by norm_num]
    exact Real.sqrt_sq (by norm_num)

/-! ### C9 — driver exit status on invalid input -/

/-- C9 (counterexample): the chess driver returns -1, not 1, on invalid
input (`args = ["foo"]` gives an even `argc = 2`), and the even-`argc`
invocation `["-h"]` returns 0 (help), so "even total argument count ⟹
exit status 1" fails on both counts. -/
theorem chessMain_exit_code_counterexample :
    chessMain ["foo"] = Except.error (-1) ∧ ((-1 : ℤ) ≠ 1) ∧
    chessMain ["-h"] = Except.error 0 ∧ ((0 : ℤ) ≠ 1) :=
  ⟨rfl, by decide, rfl, by decide⟩

/-- `chessParsePairs` rejects (with -1) any pair list containing an
unrecognised key. -/
theorem chessParsePairs_unknown_key (ps : List (String × String))
    (h : ∃ p ∈ ps, chessKnownKey p.1 = false) :
    chessParsePairs (pairsToArgs ps) = Except.error (-1) := by
  induction ps with
  | nil => rcases h with ⟨p, hp, _⟩; cases hp
  | cons q rest ih =>
    show chessParsePairs (q.1 :: q.2 :: pairsToArgs rest) = Except.error (-1)
    rcases h with ⟨p, hp, hpk⟩
    rcases List.mem_cons.mp hp with rfl | hp
    · rw [chessParsePairs, if_neg (by simp [hpk])]
    · by_cases hq : chessKnownKey q.1
      · rw [chessParsePairs, if_pos hq]
        exact ih ⟨p, hp, hpk⟩
      · rw [chessParsePairs, if_neg hq]

/-- The flattened pair list has even length. -/
theorem pairsToArgs_length (ps : List (String × String)) :
    (pairsToArgs ps).length = 2 * ps.length := by
  induction ps with
  | nil => rfl
  | cons q rest ih =>
    show (q.1 :: q.2 :: pairsToArgs rest).length = 2 * (rest.length + 1)
    simp [ih]; ring

/-- C9 (amended): on invalid command-line input the chess driver returns
-1 (a non-zero status, reported as 255 by the shell) before any search
begins — for every even total argument count except the lone `-h`/`--help`
flag (which prints usage and returns 0), and for every key/value argument
list containing an unknown key. -/
theorem chessMain_invalid_input_exits (args : List String)
    (ps : List (String × String)) :
    ((args.length + 1) % 2 = 0 → ¬(args = ["-h"] ∨ args = ["--help"]) →
      chessMain args = Except.error (-1)) ∧
    ((∃ p ∈ ps, chessKnownKey p.1 = false) →
      chessMain (pairsToArgs ps) = Except.error (-1)) := by
  constructor
  · intro hev hh
    rw [chessMain, if_neg hh, if_pos hev]
  · intro hunk
    have hne : ¬(pairsToArgs ps = ["-h"] ∨ pairsToArgs ps = ["--help"]) := by
      have hlen := pairsToArgs_length ps
      rintro (h | h) <;> rw [h] at hlen <;> simp at hlen <;> omega
    have hpar : ¬((pairsToArgs ps).length + 1) % 2 = 0 := by
      rw [pairsToArgs_length]; omega
    rw [chessMain, if_neg hne, if_neg hpar]
    exact chessParsePairs_unknown_key ps hunk

/-- C9 (witness): an even argument count (`argc = 2`) and an unknown key
both produce the -1 exit. -/
theorem chessMain_invalid_input_exits_witness :
    chessMain ["x"] = Except.error (-1) ∧
    chessMain (pairsToArgs [("bogus", "1")]) = Except.error (-1) :=
  ⟨(chessMain_invalid_input_exits ["x"] []).1 (by decide) (by decide),
   (chessMain_invalid_input_exits [] [("bogus", "1")]).2
     ⟨("bogus", "1"), List.mem_cons_self _ _, by decide⟩⟩

/-! ### C6 — stochastic selector temperature schedule -/

/-- C6 (counterexample): at history length 40 the code still uses
`τ = 1.0` (`history.size() > 60` is the switch), while the claimed
schedule (`τ = 1.0` only for the first 30 half-moves) gives `τ = 0.05`. -/
theorem tau_schedule_counterexample :
    tauOf 40 = 1 ∧ tauClaimSchedule 40 = 1 / 20 ∧ (1 : ℚ) ≠ 1 / 20 :=
  ⟨rfl, rfl, by norm_num⟩

/-- C6 (amended): in stochastic mode `execute` hands the sampler the
distribution `πᵢ ∝ Nᵢ^(1/τ)` over the sub-root's children, where the
temperature is `τ = 1.0` while the history length is at most 60 half-moves
and `τ = 0.05` afterwards: the exponent used is exactly `1/τ`, each π
entry is the corresponding weight `Nᵢ^(1/τ)` divided by the total weight,
and the π vector produced by `executeCore` in stochastic mode is exactly
`piStochastic` of the final children's visit counts.  At history length
70 with visits {100, 5, 1} the first entry exceeds 0.999 (spec scenario
S5). -/
theorem stochastic_selector_schedule {S A : Type} (prob : Problem S A)
    (sqrtQ : ℕ → ℚ) (s0 : S) (policyIter histLen : ℕ) (noise : ℕ → List ℚ)
    (pick : List ℚ → ℕ) (fuel : ℕ) (t0 : MTree A) (out : ExecOut A) :
    (∀ h : ℕ, (h ≤ 60 → tauOf h = 1) ∧ (60 < h → tauOf h = 1 / 20)) ∧
    (∀ h : ℕ, (invTauNat h : ℚ) = 1 / tauOf h) ∧
    (∀ (Ns : List ℕ) (h i : ℕ) (w : ℚ),
      (piUnnormalized Ns (invTauNat h))[i]? = some w →
      (piStochastic Ns h)[i]? = some (w / (piUnnormalized Ns (invTauNat h)).sum)) ∧
    (executeCore prob sqrtQ false s0 policyIter histLen noise pick fuel t0 = some out →
      out.piOut = piStochastic (out.tree.children.map (fun c => c.data.N)) histLen) ∧
    (999 / 1000 : ℚ) < (piStochastic [100, 5, 1] 70).headD 0 := by
  refine ⟨?_, ?_, ?_, ?_, by norm_num [piStochastic, normalizeQ, piUnnormalized, invTauNat]⟩
  · intro h
    constructor
    · intro hle; rw [tauOf, if_neg (by omega)]
    · intro hgt; rw [tauOf, if_pos hgt]
  · intro h
    by_cases hgt : 60 < h
    · rw [tauOf, invTauNat, if_pos hgt, if_pos hgt]; norm_num
    · rw [tauOf, invTauNat, if_neg hgt, if_neg hgt]; norm_num
  · intro Ns h i w hw
    simp only [piStochastic, normalizeQ, List.getElem?_map, hw]
    rfl
  · intro hrun
    unfold executeCore at hrun
    split at hrun
    · exact absurd hrun (by simp)
    · rw [if_neg (by simp)] at hrun
      split at hrun
      · exact absurd hrun (by simp)
      · rw [if_neg (by simp)] at hrun
        cases hrun
        rfl

/-- C6 (witness): the schedule facts applied at history lengths 40 and 70,
and the proportionality applied to the weight list of {100, 5, 1} at
temperature 0.05. -/
theorem stochastic_selector_schedule_witness :
    tauOf 40 = 1 ∧ tauOf 70 = 1 / 20 ∧
    (piStochastic [100, 5, 1] 70)[0]?
      = some ((100 : ℚ) ^ 20 / (piUnnormalized [100, 5, 1] (invTauNat 70)).sum) := by
  have h := stochastic_selector_schedule finishedProb (fun _ => 1) 0 1 0
    (fun _ => []) (fun _ => 0) 1 (MTree.node ⟨0, 0, 0, 0⟩ [])
    ⟨0, MTree.node ⟨0, 0, 0, 0⟩ [], 1, []⟩
  exact ⟨(h.1 40).1 (by decide), (h.1 70).2 (by decide),
    h.2.2.1 [100, 5, 1] 70 0 ((100 : ℚ) ^ 20) (by norm_num [piUnnormalized, invTauNat])⟩

/-! ### C3 — the higher prior dominates selection at an unvisited root -/

/-- C3: with exactly two unvisited children (N = 0, W = 0) of priors 0.9
and 0.1, the selection step of `policy` picks the first child for *every*
normalized Dirichlet noise vector (non-negative entries summing to 1)
blended at root ratio 0.75, any positive exploration constant and any
positive root visit scale (after the warm iteration the sub-root has
`N = 1`, so the scale is `sqrt 1 = 1 > 0`). -/
theorem puct_prior_dominates {A : Type} (a b : A) (dA dB sqrtN c : ℚ)
    (hA : 0 ≤ dA) (hB : 0 ≤ dB) (hsum : dA + dB = 1)
    (hs : 0 < sqrtN) (hc : 0 < c) :
    selectBestChild
      [MTree.node ⟨0, 0, 9 / 10, a⟩ [], MTree.node ⟨0, 0, 1 / 10, b⟩ []]
      sqrtN (3 / 4) c [dA, dB] = some 0 := by
  have hden : (0 : ℚ) < 1 + dblEps := by norm_num [dblEps]
  have hk : (0 : ℚ) < sqrtN / (1 + dblEps) := div_pos hs hden
  have hp : 3 / 4 * (1 / 10) + (1 - 3 / 4) * dB
      < 3 / 4 * (9 / 10) + (1 - 3 / 4) * dA := by nlinarith
  have hval : getUCB (⟨0, 0, 1 / 10, b⟩ : NodeData A) sqrtN (3 / 4) dB c
      < getUCB (⟨0, 0, 9 / 10, a⟩ : NodeData A) sqrtN (3 / 4) dA c := by
    have hkey := mul_pos (mul_pos hc hk) (sub_pos.mpr hp)
    simp only [getUCB, Nat.cast_zero, zero_div, zero_add]
    nlinarith [hkey]
  have hnlt := lt_asymm hval
  have hsel : selectBestChild
      [MTree.node ⟨0, 0, 9 / 10, a⟩ [], MTree.node ⟨0, 0, 1 / 10, b⟩ []]
      sqrtN (3 / 4) c [dA, dB]
      = (if getUCB (⟨0, 0, 9 / 10, a⟩ : NodeData A) sqrtN (3 / 4) dA c
            < getUCB (⟨0, 0, 1 / 10, b⟩ : NodeData A) sqrtN (3 / 4) dB c
         then some (1, getUCB (⟨0, 0, 1 / 10, b⟩ : NodeData A) sqrtN (3 / 4) dB c)
         else some (0, getUCB (⟨0, 0, 9 / 10, a⟩ : NodeData A) sqrtN (3 / 4) dA c)).map
          Prod.fst := rfl
  rw [hsel, if_neg hnlt]
  rfl

/-- C3 (witness): concrete instance with uniform noise, scale 1 and
exploration constant 1. -/
theorem puct_prior_dominates_witness :
    selectBestChild
      [MTree.node ⟨0, 0, 9 / 10, (5 : ℕ)⟩ [], MTree.node ⟨0, 0, 1 / 10, 7⟩ []]
      1 (3 / 4) 1 [1 / 2, 1 / 2] = some 0 :=
  puct_prior_dominates 5 7 (1 / 2) (1 / 2) 1 1 (by norm_num) (by norm_num)
    (by norm_num) (by norm_num) (by norm_num)

/-! ### C10 — the fixed-fanout array tree's addNode -/

theorem staticAddNode_idx (l : List ℕ) (c : ℕ) :
    (staticAddNode l c).1 = firstFreeIdx l := rfl

theorem staticAddNode_err (l : List ℕ) (c : ℕ) :
    (staticAddNode l c).2.1 = decide (firstFreeIdx l = l.length) := rfl

theorem staticAddNode_childs (l : List ℕ) (c : ℕ) :
    (staticAddNode l c).2.2 = l.set (firstFreeIdx l) c := rfl

/-- A slot array whose entries are all zero has no iterable children. -/
theorem takeWhile_zeros {l : List ℕ} (h : ∀ x ∈ l, x = 0) :
    l.takeWhile (fun x => ¬ x = 0) = [] := by
  cases l with
  | nil => rfl
  | cons x rest =>
    rw [List.takeWhile_cons_of_neg]
    simp [h x (List.mem_cons_self x rest)]

/-- C10: the slot array of a `MCTreeStaticArray::Node` has its occupied
slots as a prefix (`hzeros`: after the first empty slot everything is
empty) and new node indices are nonzero (the root occupies vector index
0).  If the parent holds fewer than `N_MaxChild` children, `addNode`
writes inside the array, the `"Error in child saving"` branch is dead,
and the child lands in the first empty slot, appending it after the
existing children in iteration order.  If the parent is full, the write
index *equals* `N_MaxChild` — one past the end of the fixed array — and
the error branch runs (the function still performs the write). -/
theorem staticAddNode_spec (childs : List ℕ) (childIdx : ℕ)
    (hzeros : ∀ x ∈ childs.dropWhile (fun x => ¬ x = 0), x = 0)
    (hidx : ¬ childIdx = 0) :
    ((iterChildren childs).length < childs.length →
      (staticAddNode childs childIdx).1 < childs.length ∧
      (staticAddNode childs childIdx).2.1 = false ∧
      iterChildren (staticAddNode childs childIdx).2.2
        = iterChildren childs ++ [childIdx]) ∧
    ((iterChildren childs).length = childs.length →
      (staticAddNode childs childIdx).1 = childs.length ∧
      (staticAddNode childs childIdx).2.1 = true) := by
  induction childs with
  | nil =>
    exact ⟨fun h => absurd h (by simp [iterChildren]), fun _ => ⟨rfl, rfl⟩⟩
  | cons x rest ih =>
    by_cases hx : x = 0
    · subst hx
      have hallz : ∀ y ∈ (0 :: rest : List ℕ), y = 0 := by
        have hdw : (0 :: rest : List ℕ).dropWhile (fun x => ¬ x = 0) = 0 :: rest := by
          rw [List.dropWhile_cons_of_neg]; simp
        rw [hdw] at hzeros; exact hzeros
      have hiter : iterChildren (0 :: rest) = [] := by
        rw [iterChildren, List.takeWhile_cons_of_neg]; simp
      have hffi : firstFreeIdx (0 :: rest) = 0 := by
        rw [firstFreeIdx, List.findIdx_cons]; simp
      constructor
      · intro _
        refine ⟨?_, ?_, ?_⟩
        · rw [staticAddNode_idx, hffi]; exact Nat.succ_pos _
        · rw [staticAddNode_err, hffi]; simp
        · rw [staticAddNode_childs, hffi, List.set_cons_zero, hiter]
          rw [iterChildren, List.takeWhile_cons_of_pos (by simp [hidx])]
          rw [takeWhile_zeros (fun y hy => hallz y (List.mem_cons_of_mem _ hy))]
          rfl
      · intro hlen
        rw [hiter] at hlen
        exact absurd hlen.symm (by simp)
    · have hdw : (x :: rest).dropWhile (fun y => ¬ y = 0) = rest.dropWhile (fun y => ¬ y = 0) := by
        rw [List.dropWhile_cons_of_pos]; simp [hx]
      rw [hdw] at hzeros
      have hiter : iterChildren (x :: rest) = x :: iterChildren rest := by
        rw [iterChildren, List.takeWhile_cons_of_pos (by simp [hx])]; rfl
      have hffi : firstFreeIdx (x :: rest) = firstFreeIdx rest + 1 := by
        rw [firstFreeIdx, List.findIdx_cons]; simp [hx]; rfl
      rcases ih hzeros with ⟨ih1, ih2⟩
      constructor
      · intro hlt
        have hlt2 : (iterChildren rest).length < rest.length := by
          rw [hiter] at hlt; simpa using hlt
        rcases ih1 hlt2 with ⟨h1, h2, h3⟩
        rw [staticAddNode_idx] at h1
        rw [staticAddNode_err] at h2
        rw [staticAddNode_childs] at h3
        refine ⟨?_, ?_, ?_⟩
        · rw [staticAddNode_idx, hffi]
          exact Nat.succ_lt_succ h1
        · rw [staticAddNode_err, hffi]
          simp only [List.length_cons]
          simp [Nat.ne_of_lt h1]
        · rw [staticAddNode_childs, hffi, List.set_cons_succ, hiter]
          rw [iterChildren, List.takeWhile_cons_of_pos (by simp [hx])]
          rw [show (rest.set (firstFreeIdx rest) childIdx).takeWhile (fun y => ¬ y = 0)
              = iterChildren (rest.set (firstFreeIdx rest) childIdx) from rfl, h3]
          rfl
      · intro hlen
        have hlen2 : (iterChildren rest).length = rest.length := by
          rw [hiter] at hlen; simpa using hlen
        rcases ih2 hlen2 with ⟨h1, h2⟩
        rw [staticAddNode_idx] at h1
        refine ⟨?_, ?_⟩
        · rw [staticAddNode_idx, hffi, h1]; rfl
        · rw [staticAddNode_err, hffi, h1]; simp

/-- C10 (witness): a parent with slots `[3, 0, 0]` (one child, capacity 3)
accepts index 7 in slot 1 with no error and preserves insertion order;
a full parent `[3, 4, 5]` produces write index 3 = `N_MaxChild` (past the
end) with the error branch active. -/
theorem staticAddNode_spec_witness :
    ((staticAddNode [3, 0, 0] 7).1 < 3 ∧
      (staticAddNode [3, 0, 0] 7).2.1 = false ∧
      iterChildren (staticAddNode [3, 0, 0] 7).2.2 = iterChildren [3, 0, 0] ++ [7]) ∧
    ((staticAddNode [3, 4, 5] 9).1 = 3 ∧ (staticAddNode [3, 4, 5] 9).2.1 = true) :=
  ⟨(staticAddNode_spec [3, 0, 0] 7 (by decide) (by decide)).1 (by decide),
   (staticAddNode_spec [3, 4, 5] 9 (by decide) (by decide)).2 (by decide)⟩

/-! ### C1 — expansion creates one child per action, in order, with priors -/

theorem mkChildren_length {A : Type} (pr : ℕ → ℚ) (as : List A) :
    ∀ i, (mkChildren pr i as).length = as.length := by
  induction as with
  | nil => intro i; rfl
  | cons a rest ih =>
    intro i
    show (mkChildren pr (i + 1) rest).length + 1 = rest.length + 1
    rw [ih]

theorem mkChildren_acts {A : Type} (pr : ℕ → ℚ) (as : List A) :
    ∀ i, (mkChildren pr i as).map (fun c => c.data.act) = as := by
  induction as with
  | nil => intro i; rfl
  | cons a rest ih =>
    intro i
    show a :: (mkChildren pr (i + 1) rest).map (fun c => c.data.act) = a :: rest
    rw [ih]

theorem mkChildren_getElem {A : Type} (pr : ℕ → ℚ) (as : List A) :
    ∀ i j c, (mkChildren pr i as)[j]? = some c →
      c.data.P = pr (i + j) ∧ c.data.N = 0 ∧ c.data.W = 0 := by
  induction as with
  | nil => intro i j c h; cases h
  | cons a rest ih =>
    intro i j c h
    cases j with
    | zero =>
      rw [show mkChildren pr i (a :: rest)
          = MTree.node ⟨0, 0, pr i, a⟩ [] :: mkChildren pr (i + 1) rest from rfl,
        List.getElem?_cons_zero] at h
      cases h
      exact ⟨by simp [MTree.data], rfl, rfl⟩
    | succ j =>
      rw [show mkChildren pr i (a :: rest)
          = MTree.node ⟨0, 0, pr i, a⟩ [] :: mkChildren pr (i + 1) rest from rfl,
        List.getElem?_cons_succ] at h
      have := ih (i + 1) j c h
      rwa [show i + 1 + j = i + (j + 1) by omega] at this

/-- C1: an expansion event — the policy loop reaching a non-terminal node
with `N = 0` and no children — makes `policyLoop` perform exactly the
expansion `expandTree` and return; immediately afterwards the node's child
count equals the number of legal actions the Problem returned, the
children carry exactly those actions in the returned order, and each
child's prior `P` is the corresponding entry of the Problem's prior
vector (children are created with `N = 0, W = 0`). -/
theorem policy_expansion_event {S A : Type} (prob : Problem S A) (sqrtQ : ℕ → ℚ)
    (dirichlet : List ℚ) (fuel : ℕ) (ratio : ℚ) (t : MTree A) (s : S)
    (hfin : prob.isFinished s = false) (hN : t.data.N = 0) (hch : t.children = []) :
    policyLoop prob sqrtQ dirichlet (fuel + 1) ratio t s
      = some (expandTree prob s t, [[]], prob.wpW s) ∧
    (expandTree prob s t).children.length = (prob.legalActions s).length ∧
    (expandTree prob s t).children.map (fun c => c.data.act) = prob.legalActions s ∧
    (∀ j c, (expandTree prob s t).children[j]? = some c →
      c.data.P = prob.wpP s j ∧ c.data.N = 0 ∧ c.data.W = 0) := by
  have hexp : (expandTree prob s t).children
      = mkChildren (prob.wpP s) 0 (prob.legalActions s) := by
    show t.children ++ _ = _
    rw [hch, List.nil_append]
  refine ⟨?_, ?_, ?_, ?_⟩
  · rw [policyLoop, if_neg (by simp [hfin]), if_pos ⟨hN, by rw [hch]; rfl⟩]
  · rw [hexp, mkChildren_length]
  · rw [hexp, mkChildren_acts]
  · intro j c hc
    rw [hexp] at hc
    have := mkChildren_getElem (prob.wpP s) (prob.legalActions s) 0 j c hc
    rwa [Nat.zero_add] at this

/-- C1 (witness): expanding a fresh node of the two-action problem. -/
theorem policy_expansion_event_witness :
    policyLoop twoActionProb (fun _ => 1) [] (2 + 1) (3 / 4)
        (MTree.node ⟨0, 0, 0, 0⟩ []) 0
      = some (expandTree twoActionProb 0 (MTree.node ⟨0, 0, 0, 0⟩ []),
          [[]], twoActionProb.wpW 0) ∧
    (expandTree twoActionProb 0 (MTree.node ⟨0, 0, 0, 0⟩ [])).children.map
        (fun c => c.data.act) = twoActionProb.legalActions 0 :=
  ⟨(policy_expansion_event twoActionProb (fun _ => 1) [] 2 (3 / 4)
      (MTree.node ⟨0, 0, 0, 0⟩ []) 0 rfl rfl rfl).1,
   (policy_expansion_event twoActionProb (fun _ => 1) [] 2 (3 / 4)
      (MTree.node ⟨0, 0, 0, 0⟩ []) 0 rfl rfl rfl).2.2.1⟩

/-! ### C7 — catchup: frame property, fresh nodes, returned path -/

@[simp] theorem data_node {A : Type} (d : NodeData A) (cs : List (MTree A)) :
    (MTree.node d cs).data = d := rfl

@[simp] theorem children_node {A : Type} (d : NodeData A) (cs : List (MTree A)) :
    (MTree.node d cs).children = cs := rfl

theorem dataAt_nil {A : Type} (t : MTree A) : dataAt t [] = some t.data := rfl

theorem dataAt_cons {A : Type} (t : MTree A) (i : ℕ) (p : List ℕ) :
    dataAt t (i :: p) = match t.children[i]? with
      | some c => dataAt c p
      | none => none := rfl

theorem actionsAlong_cons {A : Type} (t : MTree A) (i : ℕ) (p : List ℕ) :
    actionsAlong t (i :: p) = match t.children[i]? with
      | some c => (actionsAlong c p).map (fun l => c.data.act :: l)
      | none => none := rfl

theorem findChildAux_spec {A : Type} [DecidableEq A] (a : A) :
    ∀ (cs : List (MTree A)) (k i : ℕ) (c : MTree A),
      findChildAux a k cs = some (i, c) →
      k ≤ i ∧ cs[i - k]? = some c ∧ c.data.act = a := by
  intro cs
  induction cs with
  | nil => intro k i c h; cases h
  | cons ch rest ih =>
    intro k i c h
    rw [findChildAux] at h
    by_cases hact : ch.data.act = a
    · rw [if_pos hact] at h
      cases h
      refine ⟨Nat.le_refl _, ?_, hact⟩
      rw [Nat.sub_self, List.getElem?_cons_zero]
    · rw [if_neg hact] at h
      rcases ih (k + 1) i c h with ⟨hk, hget, hca⟩
      refine ⟨Nat.le_trans (Nat.le_succ _) hk, ?_, hca⟩
      have hik : i - k = (i - (k + 1)) + 1 := by omega
      rw [hik, List.getElem?_cons_succ]
      exact hget

theorem findChild_spec {A : Type} [DecidableEq A] {cs : List (MTree A)} {a : A}
    {i : ℕ} {c : MTree A} (h : findChild cs a = some (i, c)) :
    cs[i]? = some c ∧ c.data.act = a := by
  rcases findChildAux_spec a cs 0 i c h with ⟨_, hget, hca⟩
  rw [Nat.sub_zero] at hget
  exact ⟨hget, hca⟩

/-- `catchup` never changes the data stored at the node it starts from. -/
theorem catchup_root_data {A : Type} [DecidableEq A] (h : List A) :
    ∀ t : MTree A, (catchup t h).1.data = t.data := by
  cases h with
  | nil => intro t; rfl
  | cons a rest =>
    intro t
    rw [catchup]
    cases hf : findChild t.children a with
    | some ic => obtain ⟨i, c⟩ := ic; rfl
    | none => rfl

/-- Frame property: the data of every pre-existing node survives
`catchup` unchanged. -/
theorem catchup_frame {A : Type} [DecidableEq A] (h : List A) :
    ∀ (t : MTree A) (p : List ℕ) (d : NodeData A),
      dataAt t p = some d → dataAt (catchup t h).1 p = some d := by
  induction h with
  | nil => intro t p d hd; exact hd
  | cons a rest ih =>
    intro t p d hd
    rw [catchup]
    cases hf : findChild t.children a with
    | some ic =>
      obtain ⟨i, c⟩ := ic
      rcases findChild_spec hf with ⟨hget, _⟩
      obtain ⟨hlt, _⟩ := List.getElem?_eq_some_iff.mp hget
      cases p with
      | nil => exact hd
      | cons j q =>
        rw [dataAt_cons] at hd ⊢
        simp only [children_node]
        by_cases hij : i = j
        · subst hij
          rw [List.getElem?_set_self hlt]
          rw [hget] at hd
          exact ih c q d hd
        · rw [List.getElem?_set_ne hij]
          exact hd
    | none =>
      cases p with
      | nil => exact hd
      | cons j q =>
        rw [dataAt_cons] at hd ⊢
        simp only [children_node]
        cases hcj : t.children[j]? with
        | none => rw [hcj] at hd; cases hd
        | some c0 =>
          rw [hcj] at hd
          have hj : j < t.children.length := (List.getElem?_eq_some_iff.mp hcj).1
          rw [List.getElem?_append_left hj, hcj]
          exact hd

/-- Every node `catchup` creates starts with `N = 0, W = 0, P = 0`. -/
theorem catchup_new_nodes {A : Type} [DecidableEq A] (h : List A) :
    ∀ (t : MTree A) (p : List ℕ) (d : NodeData A),
      dataAt (catchup t h).1 p = some d → dataAt t p = none →
      d.N = 0 ∧ d.W = 0 ∧ d.P = 0 := by
  induction h with
  | nil =>
    intro t p d h1 h2
    rw [show (catchup t []).1 = t from rfl] at h1
    rw [h1] at h2; cases h2
  | cons a rest ih =>
    intro t p d h1 h2
    rw [catchup] at h1
    cases hf : findChild t.children a with
    | some ic =>
      obtain ⟨i, c⟩ := ic
      rw [hf] at h1
      rcases findChild_spec hf with ⟨hget, _⟩
      obtain ⟨hlt, _⟩ := List.getElem?_eq_some_iff.mp hget
      cases p with
      | nil => rw [dataAt_nil] at h2; cases h2
      | cons j q =>
        rw [dataAt_cons] at h1 h2
        simp only [children_node] at h1
        by_cases hij : i = j
        · subst hij
          rw [List.getElem?_set_self hlt] at h1
          rw [hget] at h2
          exact ih c q d h1 h2
        · rw [List.getElem?_set_ne hij] at h1
          cases hcj : t.children[j]? with
          | none => rw [hcj] at h1; cases h1
          | some c0 =>
            rw [hcj] at h1 h2
            rw [h2] at h1; cases h1
    | none =>
      rw [hf] at h1
      cases p with
      | nil => rw [dataAt_nil] at h2; cases h2
      | cons j q =>
        rw [dataAt_cons] at h1 h2
        simp only [children_node] at h1
        by_cases hj : j < t.children.length
        · rw [List.getElem?_append_left hj] at h1
          cases hcj : t.children[j]? with
          | none => rw [hcj] at h1; cases h1
          | some c0 =>
            rw [hcj] at h1 h2
            rw [h2] at h1; cases h1
        · by_cases hj2 : j = t.children.length
          · subst hj2
            rw [List.getElem?_concat_length] at h1
            have h1b : dataAt (catchup (MTree.node ⟨0, 0, 0, a⟩ []) rest).1 q = some d := h1
            cases q with
            | nil =>
              rw [dataAt_nil, catchup_root_data] at h1b
              cases h1b
              exact ⟨rfl, rfl, rfl⟩
            | cons j2 q2 =>
              exact ih (MTree.node ⟨0, 0, 0, a⟩ []) (j2 :: q2) d h1b rfl
          · rw [List.getElem?_eq_none (by simp; omega)] at h1
            cases h1

/-- The node `catchup` returns is reached by consuming the entire history,
descending by action equality: the actions along the returned path are
exactly the history. -/
theorem catchup_path_actions {A : Type} [DecidableEq A] (h : List A) :
    ∀ t : MTree A, actionsAlong (catchup t h).1 (catchup t h).2 = some h := by
  induction h with
  | nil => intro t; rfl
  | cons a rest ih =>
    intro t
    rw [catchup]
    cases hf : findChild t.children a with
    | some ic =>
      obtain ⟨i, c⟩ := ic
      rcases findChild_spec hf with ⟨hget, hact⟩
      obtain ⟨hlt, _⟩ := List.getElem?_eq_some_iff.mp hget
      show actionsAlong (MTree.node t.data (t.children.set i (catchup c rest).1))
          (i :: (catchup c rest).2) = some (a :: rest)
      rw [actionsAlong_cons]
      simp only [children_node]
      rw [List.getElem?_set_self hlt]
      show (actionsAlong (catchup c rest).1 (catchup c rest).2).map
          (fun l => (catchup c rest).1.data.act :: l) = some (a :: rest)
      rw [ih c, catchup_root_data, hact]
      rfl
    | none =>
      show actionsAlong
          (MTree.node t.data (t.children ++ [(catchup (MTree.node ⟨0, 0, 0, a⟩ []) rest).1]))
          (t.children.length :: (catchup (MTree.node ⟨0, 0, 0, a⟩ []) rest).2)
          = some (a :: rest)
      rw [actionsAlong_cons]
      simp only [children_node]
      rw [List.getElem?_concat_length]
      show (actionsAlong (catchup (MTree.node ⟨0, 0, 0, a⟩ []) rest).1
            (catchup (MTree.node ⟨0, 0, 0, a⟩ []) rest).2).map
          (fun l => (catchup (MTree.node ⟨0, 0, 0, a⟩ []) rest).1.data.act :: l)
          = some (a :: rest)
      rw [ih, catchup_root_data]
      rfl

/-- C7: a `catchup` call leaves the `N`, `W`, `P` fields of every
pre-existing node unchanged (their whole data survives), every node it
creates starts with `N = 0, W = 0, P = 0`, and the returned node is the
one reached by consuming the entire history, descending by action
equality (the actions along the returned path equal the history). -/
theorem catchup_spec {A : Type} [DecidableEq A] (t : MTree A) (h : List A) :
    (∀ (p : List ℕ) (d : NodeData A), dataAt t p = some d →
        dataAt (catchup t h).1 p = some d) ∧
    (∀ (p : List ℕ) (d : NodeData A), dataAt (catchup t h).1 p = some d →
        dataAt t p = none → d.N = 0 ∧ d.W = 0 ∧ d.P = 0) ∧
    actionsAlong (catchup t h).1 (catchup t h).2 = some h :=
  ⟨fun p d => catchup_frame h t p d, fun p d => catchup_new_nodes h t p d,
   catchup_path_actions h t⟩

/-- C7 (witness): catching up `demoCatchTree` on history `[4, 9]` keeps
the existing child's statistics, creates the node for action 9 with
`N = W = P = 0`, and the returned path spells out the history. -/
theorem catchup_spec_witness :
    dataAt (catchup demoCatchTree [4, 9]).1 [0] = some ⟨2, 3, 1 / 2, 4⟩ ∧
    ((⟨0, 0, 0, 9⟩ : NodeData ℕ).N = 0 ∧ (⟨0, 0, 0, 9⟩ : NodeData ℕ).W = 0 ∧
      (⟨0, 0, 0, 9⟩ : NodeData ℕ).P = 0) ∧
    actionsAlong (catchup demoCatchTree [4, 9]).1 (catchup demoCatchTree [4, 9]).2
      = some [4, 9] :=
  ⟨(catchup_spec demoCatchTree [4, 9]).1 [0] ⟨2, 3, 1 / 2, 4⟩ rfl,
   (catchup_spec demoCatchTree [4, 9]).2.1 [0, 0] ⟨0, 0, 0, 9⟩ rfl rfl,
   (catchup_spec demoCatchTree [4, 9]).2.2⟩

/-! ### Unfolding lemmas for the selection fold and the policy loop -/

theorem selectAux_nil {A : Type} (sqrtN ratio c : ℚ) (dirichlet : List ℚ)
    (i : ℕ) (acc : Option (ℕ × ℚ)) :
    selectAux sqrtN ratio c dirichlet i acc ([] : List (MTree A)) = acc := rfl

theorem selectAux_cons_none {A : Type} (sqrtN ratio c : ℚ) (dirichlet : List ℚ)
    (i : ℕ) (ch : MTree A) (rest : List (MTree A)) :
    selectAux sqrtN ratio c dirichlet i none (ch :: rest)
      = selectAux sqrtN ratio c dirichlet (i + 1)
          (some (i, getUCB ch.data sqrtN ratio
            (dirichlet.getD (i % dirichlet.length) 0) c)) rest := rfl

theorem selectAux_cons_some {A : Type} (sqrtN ratio c : ℚ) (dirichlet : List ℚ)
    (i j : ℕ) (v : ℚ) (ch : MTree A) (rest : List (MTree A)) :
    selectAux sqrtN ratio c dirichlet i (some (j, v)) (ch :: rest)
      = selectAux sqrtN ratio c dirichlet (i + 1)
          (if v < getUCB ch.data sqrtN ratio (dirichlet.getD (i % dirichlet.length) 0) c
           then some (i, getUCB ch.data sqrtN ratio
             (dirichlet.getD (i % dirichlet.length) 0) c)
           else some (j, v)) rest := rfl

/-- Once the running best is set it never becomes `none` again. -/
theorem selectAux_acc_some {A : Type} (sqrtN ratio c : ℚ) (dirichlet : List ℚ) :
    ∀ (cs : List (MTree A)) (i j : ℕ) (v : ℚ),
      selectAux sqrtN ratio c dirichlet i (some (j, v)) cs ≠ none := by
  intro cs
  induction cs with
  | nil => intro i j v h; cases h
  | cons ch rest ih =>
    intro i j v
    rw [selectAux_cons_some]
    by_cases hlt : v < getUCB ch.data sqrtN ratio
        (dirichlet.getD (i % dirichlet.length) 0) c
    · rw [if_pos hlt]; exact ih (i + 1) i _
    · rw [if_neg hlt]; exact ih (i + 1) j v

/-- Any index produced by the selection fold is below the range scanned. -/
theorem selectAux_bound {A : Type} (sqrtN ratio c : ℚ) (dirichlet : List ℚ) :
    ∀ (cs : List (MTree A)) (i : ℕ) (acc : Option (ℕ × ℚ)),
      (∀ j v, acc = some (j, v) → j < i) →
      ∀ j v, selectAux sqrtN ratio c dirichlet i acc cs = some (j, v) →
        j < i + cs.length := by
  intro cs
  induction cs with
  | nil =>
    intro i acc hacc j v h
    have hj := hacc j v h
    simpa using Nat.lt_of_lt_of_le hj (Nat.le_refl i)
  | cons ch rest ih =>
    intro i acc hacc j v h
    cases acc with
    | none =>
      rw [selectAux_cons_none] at h
      have hb := ih (i + 1) _ (fun j2 v2 he => by cases he; omega) j v h
      simpa [Nat.add_comm, Nat.add_assoc, Nat.add_left_comm] using
        Nat.lt_of_lt_of_le hb (by omega)
    | some jv =>
      obtain ⟨j0, v0⟩ := jv
      rw [selectAux_cons_some] at h
      by_cases hlt : v0 < getUCB ch.data sqrtN ratio
          (dirichlet.getD (i % dirichlet.length) 0) c
      · rw [if_pos hlt] at h
        have hb := ih (i + 1) _ (fun j2 v2 he => by cases he; omega) j v h
        exact Nat.lt_of_lt_of_le hb (by simp; omega)
      · rw [if_neg hlt] at h
        have hj0 := hacc j0 v0 rfl
        have hb := ih (i + 1) _ (fun j2 v2 he => by cases he; omega) j v h
        exact Nat.lt_of_lt_of_le hb (by simp; omega)

/-- On a nonempty child list the selection fold picks some child, whose
index is in bounds. -/
theorem selectBestChild_mem {A : Type} (cs : List (MTree A)) (sqrtN ratio c : ℚ)
    (dirichlet : List ℚ) (hne : cs ≠ []) :
    ∃ i, selectBestChild cs sqrtN ratio c dirichlet = some i ∧ i < cs.length := by
  cases cs with
  | nil => cases hne rfl
  | cons ch rest =>
    rw [selectBestChild, selectAux_cons_none]
    cases hsel : selectAux sqrtN ratio c dirichlet 1
        (some (0, getUCB ch.data sqrtN ratio
          (dirichlet.getD (0 % dirichlet.length) 0) c)) rest with
    | none => exact absurd hsel (selectAux_acc_some sqrtN ratio c dirichlet rest 1 0 _)
    | some jv =>
      obtain ⟨j, v⟩ := jv
      refine ⟨j, rfl, ?_⟩
      have hb := selectAux_bound sqrtN ratio c dirichlet rest 1 _
        (fun j2 v2 he => by cases he; omega) j v hsel
      simpa [Nat.add_comm] using hb

theorem policyLoop_succ_fin {S A : Type} (prob : Problem S A) (sqrtQ : ℕ → ℚ)
    (dirichlet : List ℚ) (fuel : ℕ) (ratio : ℚ) (t : MTree A) (s : S)
    (hfin : prob.isFinished s = true) :
    policyLoop prob sqrtQ dirichlet (fuel + 1) ratio t s
      = some (t, [[]], prob.wpW s) := by
  rw [policyLoop, if_pos hfin]

theorem policyLoop_succ_exp {S A : Type} (prob : Problem S A) (sqrtQ : ℕ → ℚ)
    (dirichlet : List ℚ) (fuel : ℕ) (ratio : ℚ) (t : MTree A) (s : S)
    (hfin : prob.isFinished s = false)
    (hexp : t.data.N = 0 ∧ t.children.length = 0) :
    policyLoop prob sqrtQ dirichlet (fuel + 1) ratio t s
      = some (expandTree prob s t, [[]], prob.wpW s) := by
  rw [policyLoop, if_neg (by simp [hfin]), if_pos hexp]

theorem policyLoop_succ_stay {S A : Type} (prob : Problem S A) (sqrtQ : ℕ → ℚ)
    (dirichlet : List ℚ) (fuel : ℕ) (ratio : ℚ) (t : MTree A) (s : S)
    (hfin : prob.isFinished s = false)
    (hnexp : ¬(t.data.N = 0 ∧ t.children.length = 0))
    (hsel : selectBestChild t.children (sqrtQ (visitSqrtArg prob.actBits t.data.N))
      ratio prob.uctC dirichlet = none) :
    policyLoop prob sqrtQ dirichlet (fuel + 1) ratio t s
      = (policyLoop prob sqrtQ dirichlet fuel 1 t (prob.update s t.data.act)).map
          (fun r => (r.1, [] :: r.2.1, r.2.2)) := by
  rw [policyLoop, if_neg (by simp [hfin]), if_neg hnexp]
  simp only [hsel]

theorem policyLoop_succ_sel {S A : Type} (prob : Problem S A) (sqrtQ : ℕ → ℚ)
    (dirichlet : List ℚ) (fuel : ℕ) (ratio : ℚ) (t : MTree A) (s : S)
    (hfin : prob.isFinished s = false)
    (hnexp : ¬(t.data.N = 0 ∧ t.children.length = 0))
    {i : ℕ} (hsel : selectBestChild t.children (sqrtQ (visitSqrtArg prob.actBits t.data.N))
      ratio prob.uctC dirichlet = some i)
    {c : MTree A} (hc : t.children[i]? = some c) :
    policyLoop prob sqrtQ dirichlet (fuel + 1) ratio t s
      = (policyLoop prob sqrtQ dirichlet fuel 1 c (prob.update s c.data.act)).map
          (fun r => (MTree.node t.data (t.children.set i r.1),
                     [] :: r.2.1.map (fun p => i :: p), r.2.2)) := by
  rw [policyLoop, if_neg (by simp [hfin]), if_neg hnexp]
  simp only [hsel, hc]

/-! ### The sub-root is visited exactly once per successful iteration -/

theorem countNil_cons (p : List ℕ) (r : List (List ℕ)) :
    countNil (p :: r) = (if p = [] then 1 else 0) + countNil r := rfl

theorem countNil_map_cons (i : ℕ) (l : List (List ℕ)) :
    countNil (l.map (fun p => i :: p)) = 0 := by
  induction l with
  | nil => rfl
  | cons p r ih => simpa [countNil_cons] using ih

/-- A successful `policy` run visits its sub-root exactly once, provided
the sub-root is terminal, unexpanded, or has at least one child (the only
excluded situation is a visited node with an empty child list, where the
code's selection degenerates to `best = node`). -/
theorem policyLoop_root_once {S A : Type} (prob : Problem S A) (sqrtQ : ℕ → ℚ)
    (dirichlet : List ℚ) (fuel : ℕ) (ratio : ℚ) (t : MTree A) (s : S)
    (r : MTree A × List (List ℕ) × ℚ)
    (hcond : prob.isFinished s = true ∨ t.data.N = 0 ∨ t.children ≠ [])
    (hrun : policyLoop prob sqrtQ dirichlet fuel ratio t s = some r) :
    countNil r.2.1 = 1 := by
  cases fuel with
  | zero => cases hrun
  | succ fuel =>
    by_cases hfin : prob.isFinished s = true
    · rw [policyLoop_succ_fin prob sqrtQ dirichlet fuel ratio t s hfin] at hrun
      cases hrun; rfl
    · have hfin2 : prob.isFinished s = false := by
        cases hfb : prob.isFinished s
        · rfl
        · exact absurd hfb hfin
      by_cases hexp : t.data.N = 0 ∧ t.children.length = 0
      · rw [policyLoop_succ_exp prob sqrtQ dirichlet fuel ratio t s hfin2 hexp] at hrun
        cases hrun; rfl
      · have hchne : t.children ≠ [] := by
          rcases hcond with h | h | h
          · exact absurd h hfin
          · intro hc; exact hexp ⟨h, by rw [hc]; rfl⟩
          · exact h
        obtain ⟨i, hsel, hlt⟩ := selectBestChild_mem t.children
          (sqrtQ (visitSqrtArg prob.actBits t.data.N)) ratio prob.uctC dirichlet hchne
        have hc : t.children[i]? = some (t.children.get ⟨i, hlt⟩) :=
          List.getElem?_eq_getElem hlt
        rw [policyLoop_succ_sel prob sqrtQ dirichlet fuel ratio t s hfin2 hexp hsel hc] at hrun
        cases hrec : policyLoop prob sqrtQ dirichlet fuel 1 (t.children.get ⟨i, hlt⟩)
            (prob.update s (t.children.get ⟨i, hlt⟩).data.act) with
        | none => rw [hrec] at hrun; cases hrun
        | some r2 =>
          rw [hrec] at hrun
          cases hrun
          show countNil ([] :: r2.2.1.map (fun p => i :: p)) = 1
          rw [countNil_cons, countNil_map_cons]
          rfl

/-- A successful `policy` run never changes the data stored at its
sub-root and only ever appends to child lists: the sub-root's child count
cannot shrink. -/
theorem policyLoop_root_shape {S A : Type} (prob : Problem S A) (sqrtQ : ℕ → ℚ)
    (dirichlet : List ℚ) :
    ∀ (fuel : ℕ) (ratio : ℚ) (t : MTree A) (s : S)
      (r : MTree A × List (List ℕ) × ℚ),
      policyLoop prob sqrtQ dirichlet fuel ratio t s = some r →
      r.1.data = t.data ∧ t.children.length ≤ r.1.children.length := by
  intro fuel
  induction fuel with
  | zero => intro ratio t s r h; cases h
  | succ fuel ih =>
    intro ratio t s r h
    by_cases hfin : prob.isFinished s = true
    · rw [policyLoop_succ_fin prob sqrtQ dirichlet fuel ratio t s hfin] at h
      cases h; exact ⟨rfl, Nat.le_refl _⟩
    · have hfin2 : prob.isFinished s = false := by
        cases hfb : prob.isFinished s
        · rfl
        · exact absurd hfb hfin
      by_cases hexp : t.data.N = 0 ∧ t.children.length = 0
      · rw [policyLoop_succ_exp prob sqrtQ dirichlet fuel ratio t s hfin2 hexp] at h
        cases h
        refine ⟨rfl, ?_⟩
        show t.children.length ≤ (t.children ++ _).length
        rw [List.length_append]
        exact Nat.le_add_right _ _
      · cases hselc : selectBestChild t.children
            (sqrtQ (visitSqrtArg prob.actBits t.data.N)) ratio prob.uctC dirichlet with
        | none =>
          rw [policyLoop_succ_stay prob sqrtQ dirichlet fuel ratio t s hfin2 hexp hselc] at h
          cases hrec : policyLoop prob sqrtQ dirichlet fuel 1 t
              (prob.update s t.data.act) with
          | none => rw [hrec] at h; cases h
          | some r2 =>
            rw [hrec] at h
            cases h
            exact ih 1 t _ r2 hrec
        | some i =>
          cases hci : t.children[i]? with
          | none =>
            rw [policyLoop, if_neg (by simp [hfin2]), if_neg hexp] at h
            simp only [hselc, hci] at h
            exact Option.noConfusion h
          | some c =>
            rw [policyLoop_succ_sel prob sqrtQ dirichlet fuel ratio t s
                hfin2 hexp hselc hci] at h
            cases hrec : policyLoop prob sqrtQ dirichlet fuel 1 c
                (prob.update s c.data.act) with
            | none => rw [hrec] at h; cases h
            | some r2 =>
              rw [hrec] at h
              cases h
              refine ⟨rfl, ?_⟩
              show t.children.length ≤ (t.children.set i r2.1).length
              rw [List.length_set]

/-! ### Backpropagation adds one visit at the sub-root per occurrence -/

theorem modifyAt_data_nil {A : Type} (f : NodeData A → NodeData A) (t : MTree A) :
    (modifyAt f [] t).data = f t.data := rfl

theorem modifyAt_data_cons {A : Type} (f : NodeData A → NodeData A) (i : ℕ)
    (q : List ℕ) (t : MTree A) :
    (modifyAt f (i :: q) t).data = t.data := by
  rw [modifyAt]
  cases hci : t.children[i]? with
  | some c => rfl
  | none => rfl

theorem modifyAt_children_length {A : Type} (f : NodeData A → NodeData A)
    (p : List ℕ) (t : MTree A) :
    (modifyAt f p t).children.length = t.children.length := by
  cases p with
  | nil => rfl
  | cons i q =>
    rw [modifyAt]
    cases hci : t.children[i]? with
    | some c =>
      show (t.children.set i _).length = t.children.length
      rw [List.length_set]
    | none => rfl

theorem backprop_data_N {A : Type} (W : ℚ) :
    ∀ (vis : List (List ℕ)) (t : MTree A),
      (backprop vis W t).data.N = t.data.N + countNil vis := by
  intro vis
  induction vis with
  | nil => intro t; rfl
  | cons p rest ih =>
    intro t
    show (backprop rest W (modifyAt (bumpData W) p t)).data.N = _
    rw [ih]
    cases p with
    | nil =>
      rw [modifyAt_data_nil]
      show (bumpData W t.data).N + countNil rest
        = t.data.N + countNil ([] :: rest)
      rw [countNil_cons]
      show t.data.N + 1 + countNil rest = _
      simp
      omega
    | cons i q =>
      rw [modifyAt_data_cons, countNil_cons]
      simp

theorem backprop_children_length {A : Type} (W : ℚ) :
    ∀ (vis : List (List ℕ)) (t : MTree A),
      (backprop vis W t).children.length = t.children.length := by
  intro vis
  induction vis with
  | nil => intro t; rfl
  | cons p rest ih =>
    intro t
    show (backprop rest W (modifyAt (bumpData W) p t)).children.length = _
    rw [ih, modifyAt_children_length]

/-- One successful search iteration increments the sub-root's `N` by
exactly one and never shrinks its child list. -/
theorem runIteration_spec {S A : Type} (prob : Problem S A) (sqrtQ : ℕ → ℚ)
    (dirichlet : List ℚ) (fuel : ℕ) (t : MTree A) (s : S) (t2 : MTree A)
    (hcond : prob.isFinished s = true ∨ t.data.N = 0 ∨ t.children ≠ [])
    (hrun : runIteration prob sqrtQ dirichlet fuel t s = some t2) :
    t2.data.N = t.data.N + 1 ∧ t.children.length ≤ t2.children.length := by
  rw [runIteration] at hrun
  cases hpl : policyLoop prob sqrtQ dirichlet fuel (3 / 4) t s with
  | none => rw [hpl] at hrun; cases hrun
  | some r =>
    rw [hpl] at hrun
    cases hrun
    have hcount := policyLoop_root_once prob sqrtQ dirichlet fuel (3 / 4) t s r hcond hpl
    have hshape := policyLoop_root_shape prob sqrtQ dirichlet fuel (3 / 4) t s r hpl
    constructor
    · rw [backprop_data_N, hcount, hshape.1]
    · rw [backprop_children_length]
      exact hshape.2

/-- The fan-out loop adds exactly one sub-root visit per iteration. -/
theorem runIters_spec {S A : Type} (prob : Problem S A) (sqrtQ : ℕ → ℚ)
    (noise : ℕ → List ℚ) (fuel : ℕ) (s0 : S) :
    ∀ (n idx : ℕ) (t t2 : MTree A),
      (prob.isFinished s0 = true ∨ t.children ≠ []) →
      runIters prob sqrtQ noise fuel s0 idx n t = some t2 →
      t2.data.N = t.data.N + n ∧ t.children.length ≤ t2.children.length := by
  intro n
  induction n with
  | zero =>
    intro idx t t2 _ h
    cases h
    exact ⟨rfl, Nat.le_refl _⟩
  | succ n ih =>
    intro idx t t2 hc h
    rw [runIters] at h
    cases hit : runIteration prob sqrtQ (noise idx) fuel t s0 with
    | none => rw [hit] at h; cases h
    | some t1 =>
      rw [hit] at h
      have hcond : prob.isFinished s0 = true ∨ t.data.N = 0 ∨ t.children ≠ [] := by
        rcases hc with hf | hne
        · exact Or.inl hf
        · exact Or.inr (Or.inr hne)
      rcases runIteration_spec prob sqrtQ (noise idx) fuel t s0 t1 hcond hit with ⟨h1, h2⟩
      have hc1 : prob.isFinished s0 = true ∨ t1.children ≠ [] := by
        rcases hc with hf | hne
        · exact Or.inl hf
        · right
          intro he
          rw [he] at h2
          simp at h2
          exact hne h2
      rcases ih (idx + 1) t1 t2 hc1 h with ⟨h3, h4⟩
      refine ⟨?_, Nat.le_trans h2 h4⟩
      rw [h3, h1]
      omega

/-! ### C2 — the sub-root's visit count after a decision -/

/-- C2: a single-threaded `execute` call that completes `policyIter`
iterations with no early exit (`hnoexit` rules the deterministic
single-child exit out) backpropagates through the sub-root exactly once
per iteration — once in the warm iteration and once in each of the
`policyIter - 1` fan-out iterations — so the sub-root's `N` grows by
exactly `1 + (policyIter - 1)` (= `policyIter` when `policyIter ≥ 1`;
100 when `policyIter = 100`).  The hypothesis `hcond` states that the
sub-root is in a healthy state when the decision starts: the state is
terminal, or the sub-root already has children, or it is a fresh node
(`N = 0`, no children) at a state with at least one legal action. -/
theorem execute_subroot_visits {S A : Type} (prob : Problem S A) (sqrtQ : ℕ → ℚ)
    (det : Bool) (s0 : S) (policyIter histLen : ℕ) (noise : ℕ → List ℚ)
    (pick : List ℚ → ℕ) (fuel : ℕ) (t0 : MTree A) (out : ExecOut A)
    (hrun : executeCore prob sqrtQ det s0 policyIter histLen noise pick fuel t0
      = some out)
    (hnoexit : det = true → ∀ t1 : MTree A,
      runIteration prob sqrtQ (noise 0) fuel t0 s0 = some t1 →
      t1.children.length ≠ 1)
    (hcond : prob.isFinished s0 = true ∨ t0.children ≠ [] ∨
      (t0.data.N = 0 ∧ t0.children = [] ∧ prob.legalActions s0 ≠ [])) :
    out.tree.data.N = t0.data.N + (1 + (policyIter - 1)) ∧
    out.itersRun = 1 + (policyIter - 1) := by
  rw [executeCore] at hrun
  cases hwarm : runIteration prob sqrtQ (noise 0) fuel t0 s0 with
  | none => rw [hwarm] at hrun; exact Option.noConfusion hrun
  | some t1 =>
    simp only [hwarm] at hrun
    rw [if_neg (fun hand => hnoexit hand.1 t1 hwarm hand.2)] at hrun
    cases hiters : runIters prob sqrtQ noise fuel s0 1 (policyIter - 1) t1 with
    | none => rw [hiters] at hrun; exact Option.noConfusion hrun
    | some t2 =>
      simp only [hiters] at hrun
      have hcond1 : prob.isFinished s0 = true ∨ t0.data.N = 0 ∨ t0.children ≠ [] := by
        rcases hcond with h | h | h
        · exact Or.inl h
        · exact Or.inr (Or.inr h)
        · exact Or.inr (Or.inl h.1)
      rcases runIteration_spec prob sqrtQ (noise 0) fuel t0 s0 t1 hcond1 hwarm
        with ⟨hN1, hlen1⟩
      have hcond2 : prob.isFinished s0 = true ∨ t1.children ≠ [] := by
        rcases hcond with h | h | h
        · exact Or.inl h
        · right
          intro he
          rw [he] at hlen1
          simp at hlen1
          exact h hlen1
        · by_cases hfb : prob.isFinished s0 = true
          · exact Or.inl hfb
          · right
            obtain ⟨hN0, hch0, hleg⟩ := h
            have hfin : prob.isFinished s0 = false := by
              cases hfe : prob.isFinished s0
              · rfl
              · exact absurd hfe hfb
            cases fuel with
            | zero =>
              rw [runIteration] at hwarm
              have hnone : (none : Option (MTree A)) = some t1 := hwarm
              cases hnone
            | succ f =>
              rw [runIteration, policyLoop_succ_exp prob sqrtQ (noise 0) f (3 / 4)
                t0 s0 hfin ⟨hN0, by rw [hch0]; rfl⟩] at hwarm
              cases hwarm
              intro he
              have hlen : (backprop [[]] (prob.wpW s0)
                  (expandTree prob s0 t0)).children.length
                  = (prob.legalActions s0).length := by
                rw [backprop_children_length]
                show (t0.children ++ _).length = _
                rw [hch0, List.nil_append, mkChildren_length]
              rw [he] at hlen
              exact hleg (List.length_eq_zero.mp (by simpa using hlen.symm))
      rcases runIters_spec prob sqrtQ noise fuel s0 (policyIter - 1) 1 t1 t2 hcond2
        hiters with ⟨hN2, _⟩
      by_cases hdet : det = true
      · rw [if_pos hdet] at hrun
        cases hrun
        refine ⟨?_, rfl⟩
        show t2.data.N = t0.data.N + (1 + (policyIter - 1))
        rw [hN2, hN1]
        omega
      · rw [if_neg hdet] at hrun
        cases hrun
        refine ⟨?_, rfl⟩
        show t2.data.N = t0.data.N + (1 + (policyIter - 1))
        rw [hN2, hN1]
        omega

/-- C2 (witness): two iterations on an immediately-terminal problem raise
the sub-root's `N` from 0 to 2 = 1 + (2 - 1). -/
theorem execute_subroot_visits_witness :
    (⟨0, MTree.node ⟨2, 0, 0, 0⟩ [], 2, []⟩ : ExecOut ℕ).tree.data.N
        = (MTree.node (⟨0, 0, 0, 0⟩ : NodeData ℕ) []).data.N + (1 + (2 - 1)) ∧
    (⟨0, MTree.node ⟨2, 0, 0, 0⟩ [], 2, []⟩ : ExecOut ℕ).itersRun = 1 + (2 - 1) := by
  have hrun : executeCore finishedProb (fun _ => 1) false 0 2 0 (fun _ => [])
      (fun _ => 0) 5 (MTree.node ⟨0, 0, 0, 0⟩ [])
      = some ⟨0, MTree.node ⟨2, 0, 0, 0⟩ [], 2, []⟩ := by
    simp [executeCore, runIteration, runIters, policyLoop, backprop, modifyAt,
      bumpData, finishedProb, stochasticAct, piStochastic, piUnnormalized,
      normalizeQ, invTauNat, countNil, MTree.data, MTree.children]
  exact execute_subroot_visits finishedProb (fun _ => 1) false 0 2 0 (fun _ => [])
    (fun _ => 0) 5 (MTree.node ⟨0, 0, 0, 0⟩ [])
    ⟨0, MTree.node ⟨2, 0, 0, 0⟩ [], 2, []⟩ hrun
    (fun h => Bool.noConfusion h) (Or.inl rfl)

/-! ### C5 — deterministic early exit on a single legal action -/

/-- C5: when the warm iteration leaves the sub-root with exactly one
child and the selector mode is deterministic, `execute` returns that sole
child's action immediately: no iteration beyond the warm one runs
(`itersRun = 1`) and the tree is exactly the warm iteration's tree. -/
theorem execute_single_child_early_exit {S A : Type} (prob : Problem S A)
    (sqrtQ : ℕ → ℚ) (s0 : S) (policyIter histLen : ℕ) (noise : ℕ → List ℚ)
    (pick : List ℚ → ℕ) (fuel : ℕ) (t0 t1 c : MTree A)
    (hwarm : runIteration prob sqrtQ (noise 0) fuel t0 s0 = some t1)
    (hc : t1.children = [c]) :
    executeCore prob sqrtQ true s0 policyIter histLen noise pick fuel t0
      = some ⟨c.data.act, t1, 1, []⟩ := by
  rw [executeCore]
  simp only [hwarm]
  rw [if_pos ⟨by simp, by rw [hc]; rfl⟩, hc]

/-- C5 (witness): a problem with the single legal action 7; the warm
iteration expands the fresh sub-root to one child and `execute` with 100
requested iterations returns action 7 after just the warm iteration. -/
theorem execute_single_child_early_exit_witness :
    executeCore oneActionProb (fun _ => 1) true 0 100 0 (fun _ => [1])
        (fun _ => 0) 3 (MTree.node ⟨0, 0, 0, 0⟩ [])
      = some ⟨7, MTree.node ⟨1, 1 / 2, 0, 0⟩ [MTree.node ⟨0, 0, 1, 7⟩ []], 1, []⟩ := by
  have hwarm : runIteration oneActionProb (fun _ => 1) [1] 3
      (MTree.node ⟨0, 0, 0, 0⟩ []) 0
      = some (MTree.node ⟨1, 1 / 2, 0, 0⟩ [MTree.node ⟨0, 0, 1, 7⟩ []]) := by
    simp [runIteration, policyLoop, backprop, modifyAt, bumpData, expandTree,
      mkChildren, oneActionProb, countNil, MTree.data, MTree.children]
  exact execute_single_child_early_exit oneActionProb (fun _ => 1) 0 100 0 (fun _ => [1])
    (fun _ => 0) 3 (MTree.node ⟨0, 0, 0, 0⟩ [])
    (MTree.node ⟨1, 1 / 2, 0, 0⟩ [MTree.node ⟨0, 0, 1, 7⟩ []])
    (MTree.node ⟨0, 0, 1, 7⟩ []) hwarm rfl

end MCTSVerif

